import Mathlib

/-!
Shallow embedding of the matrix-preprocessing functions of
`src/scanpy/preprocessing/simple.py`, together with theorems settling the
frozen claims about them.

Numeric values are modelled by `ℚ` (exact rational arithmetic stands for the
floating-point arithmetic of the source; all concrete inputs used below are
exactly representable) and integer count vectors by `List Int`.  Matrices are
lists of rows.  The numpy global random generator, an external collaborator,
is modelled by an explicit linear-congruential stream: the source re-seeds it
with `np.random.seed(random_state)` at the start of every randomized call, so
every randomized operation below takes an ambient-state argument `g` (the
incoming global generator state) and then derives its draws from the seed
alone, exactly as the source does.
-/

set_option maxRecDepth 8000

namespace Scanpy

/-! ### Model of the numpy global random generator (external collaborator)

`np.random.seed(s)` initializes the global state from `s`; subsequent draws
advance the state.  Modelled as a 64-bit linear-congruential generator; the
concrete constants are irrelevant to every claim, which only use that the
stream is a pure function of the seed and that draws land in `[0, n)`. -/

/-- One step of the modelled generator. -/
def lcgStep (s : Nat) : Nat :=
  (6364136223846793005 * s + 1442695040888963407) % 2 ^ 64

/-- `np.random.seed(seed)`: the state the global generator is reset to. -/
def lcgInit (seed : Nat) : Nat := (seed + 1) % 2 ^ 64

/-- The generator state after `n` further steps. -/
def lcgIter (s : Nat) : Nat → Nat
  | 0 => s
  | n + 1 => lcgStep (lcgIter s n)

/-- `np.random.choice(n, k, replace=True)` drawn from state `s`:
`k` values, each reduced into `[0, n)`. -/
def npChoiceReplace (s n k : Nat) : List Nat :=
  (List.range k).map (fun i => lcgIter s (i + 1) % n)

theorem length_npChoiceReplace (s n k : Nat) :
    (npChoiceReplace s n k).length = k := by
  simp [npChoiceReplace]

theorem mem_npChoiceReplace_lt (s n k : Nat) (hn : 0 < n) :
    ∀ d ∈ npChoiceReplace s n k, d < n := by
  intro d hd
  simp only [npChoiceReplace, List.mem_map, List.mem_range] at hd
  obtain ⟨i, _, rfl⟩ := hd
  exact Nat.mod_lt _ hn

/-- Successive without-replacement draws from `pool`, removing each drawn
element: models the selection done by `np.random.choice(·, ·, replace=False)`. -/
def drawNoRep (s : Nat) : Nat → List Nat → List Nat
  | 0, _ => []
  | _ + 1, [] => []
  | k + 1, p :: ps =>
    let pool := p :: ps
    let i := lcgIter s (k + 1) % pool.length
    pool.getD i 0 :: drawNoRep s k (pool.eraseIdx i)

/-- `np.random.choice(n, k, replace=False)` from state `s`: `none` models the
numpy error raised when the requested sample exceeds the population. -/
def npChoiceNoReplace (s n k : Nat) : Option (List Nat) :=
  if k ≤ n then some (drawNoRep s k (List.range n)) else none

theorem drawNoRep_zero (s : Nat) (pool : List Nat) :
    drawNoRep s 0 pool = [] := rfl

theorem drawNoRep_succ_nil (s k : Nat) : drawNoRep s (k + 1) [] = [] := rfl

theorem drawNoRep_succ_cons (s k : Nat) (p : Nat) (ps : List Nat) :
    drawNoRep s (k + 1) (p :: ps) =
      (p :: ps).getD (lcgIter s (k + 1) % (p :: ps).length) 0 ::
        drawNoRep s k ((p :: ps).eraseIdx (lcgIter s (k + 1) % (p :: ps).length)) :=
  rfl

theorem length_drawNoRep (s : Nat) (k : Nat) (pool : List Nat)
    (h : k ≤ pool.length) : (drawNoRep s k pool).length = k := by
  induction k generalizing pool with
  | zero => simp [drawNoRep_zero]
  | succ k ih =>
    match pool with
    | [] =>
      simp only [List.length_nil] at h
      omega
    | p :: ps =>
      rw [drawNoRep_succ_cons, List.length_cons, ih]
      rw [List.length_eraseIdx]
      have hi : lcgIter s (k + 1) % (p :: ps).length < (p :: ps).length :=
        Nat.mod_lt _ (by simp)
      rw [if_pos hi]
      simp only [List.length_cons] at h ⊢
      omega

theorem mem_drawNoRep (s : Nat) (k : Nat) (pool : List Nat) :
    ∀ x ∈ drawNoRep s k pool, x ∈ pool := by
  induction k generalizing pool with
  | zero => simp [drawNoRep_zero]
  | succ k ih =>
    match pool with
    | [] => simp [drawNoRep_succ_nil]
    | p :: ps =>
      intro x hx
      rw [drawNoRep_succ_cons] at hx
      rcases List.mem_cons.mp hx with hx | hx
      · have hi : lcgIter s (k + 1) % (p :: ps).length < (p :: ps).length :=
          Nat.mod_lt _ (by simp)
        rw [hx, List.getD_eq_getElem _ _ hi]
        exact List.getElem_mem hi
      · exact (List.eraseIdx_sublist _ _).mem (ih _ x hx)

theorem nodup_not_mem_eraseIdx {α : Type _} (l : List α) (i : Nat)
    (hi : i < l.length) (hnd : l.Nodup) : l.get ⟨i, hi⟩ ∉ l.eraseIdx i := by
  induction l generalizing i with
  | nil => simp at hi
  | cons a t ih =>
    cases i with
    | zero =>
      simpa [List.eraseIdx] using (List.nodup_cons.mp hnd).1
    | succ i =>
      simp only [List.length_cons, Nat.succ_lt_succ_iff] at hi
      simp only [List.eraseIdx, List.get, List.mem_cons]
      rintro (h | h)
      · exact (List.nodup_cons.mp hnd).1 (h ▸ List.get_mem t i hi)
      · exact ih i hi (List.nodup_cons.mp hnd).2 h

theorem nodup_drawNoRep (s : Nat) (k : Nat) (pool : List Nat)
    (hnd : pool.Nodup) : (drawNoRep s k pool).Nodup := by
  induction k generalizing pool with
  | zero => simp [drawNoRep_zero]
  | succ k ih =>
    match pool with
    | [] => simp [drawNoRep_succ_nil]
    | p :: ps =>
      rw [drawNoRep_succ_cons, List.nodup_cons]
      have hi : lcgIter s (k + 1) % (p :: ps).length < (p :: ps).length :=
        Nat.mod_lt _ (by simp)
      refine ⟨?_, ih _ ((List.eraseIdx_sublist _ _).nodup hnd)⟩
      intro hmem
      have := mem_drawNoRep s k _ _ hmem
      rw [List.getD_eq_getElem _ _ hi] at this
      exact nodup_not_mem_eraseIdx (p :: ps) _ hi hnd this

/-! ### Sorting (models `sample.sort()` / `np.sort`)

Only length and membership of the sorted list matter for the claims, so a
plain insertion sort suffices as the model. -/

/-- Insert into a (weakly ascending) list of naturals. -/
def insertSorted (x : Nat) : List Nat → List Nat
  | [] => [x]
  | y :: ys => if x ≤ y then x :: y :: ys else y :: insertSorted x ys

/-- Ascending sort of a list of naturals. -/
def sortNat (l : List Nat) : List Nat := l.foldr insertSorted []

theorem length_insertSorted (x : Nat) (l : List Nat) :
    (insertSorted x l).length = l.length + 1 := by
  induction l with
  | nil => rfl
  | cons y ys ih =>
    simp only [insertSorted]
    split
    · simp
    · simp [ih]

theorem mem_insertSorted (x : Nat) (l : List Nat) (z : Nat) :
    z ∈ insertSorted x l ↔ z = x ∨ z ∈ l := by
  induction l with
  | nil => simp [insertSorted]
  | cons y ys ih =>
    simp only [insertSorted]
    split
    · simp only [List.mem_cons]
    · simp only [List.mem_cons, ih]
      tauto

theorem length_sortNat (l : List Nat) : (sortNat l).length = l.length := by
  induction l with
  | nil => rfl
  | cons x xs ih => simp [sortNat, List.foldr] at ih ⊢; rw [length_insertSorted, ih]

theorem mem_sortNat (l : List Nat) (z : Nat) : z ∈ sortNat l ↔ z ∈ l := by
  induction l with
  | nil => simp [sortNat]
  | cons x xs ih =>
    simp only [sortNat, List.foldr] at ih ⊢
    rw [mem_insertSorted, ih, List.mem_cons]

/-! ### CountDownsampler: `downsample_cell` / `downsample_counts`
(`src/scanpy/preprocessing/simple.py`, lines 838-913, dense path)

`downsample_cell(col, target, random_state, replace)` reseeds the global
generator from `random_state`, builds the cumulative-sum array of `col`,
draws `target` integers from `[0, total)`, sorts them, and merge-walks the
sorted draws against the cumulative sums with a persistent pointer,
incrementing the located bin of an initially all-zero output. -/

/-- Running cumulative sums starting from `acc` (models `np.cumsum`). -/
def cumsumFrom (acc : Int) : List Int → List Int
  | [] => []
  | x :: xs => (acc + x) :: cumsumFrom (acc + x) xs

/-- `col.cumsum()`. -/
def cumsum (col : List Int) : List Int := cumsumFrom 0 col

theorem length_cumsumFrom (acc : Int) (l : List Int) :
    (cumsumFrom acc l).length = l.length := by
  induction l generalizing acc with
  | nil => rfl
  | cons x xs ih => simp [cumsumFrom, ih]

theorem getLast?_cumsumFrom (acc : Int) (l : List Int) (h : l ≠ []) :
    (cumsumFrom acc l).getLast? = some (acc + l.sum) := by
  induction l generalizing acc with
  | nil => exact absurd rfl h
  | cons x xs ih =>
    cases xs with
    | nil => simp [cumsumFrom]
    | cons y ys =>
      have hcc : cumsumFrom (acc + x) (y :: ys) =
          (acc + x + y) :: cumsumFrom (acc + x + y) ys := rfl
      have hstep : cumsumFrom acc (x :: y :: ys) =
          (acc + x) :: cumsumFrom (acc + x) (y :: ys) := rfl
      have hih := ih (acc + x) (by simp)
      rw [hcc] at hih
      rw [hstep, hcc, List.getLast?_cons_cons, hih]
      simp only [List.sum_cons]
      congr 1
      ring

/-- The inner `while count >= cumcounts[geneptr]: geneptr += 1` of
`downsample_cell`: first index `≥ start` whose cumulative sum exceeds
`count` (fuel-driven; the fuel is the remaining scan length). -/
def findPtrAux (cum : List Int) (count : Int) : Nat → Nat → Nat
  | 0, start => start
  | fuel + 1, start =>
    if h : start < cum.length then
      if count < cum.get ⟨start, h⟩ then start
      else findPtrAux cum count fuel (start + 1)
    else start

/-- Pointer advance from `start` for one sorted draw `count`. -/
def findPtr (cum : List Int) (count : Int) (start : Nat) : Nat :=
  findPtrAux cum count (cum.length - start) start

theorem findPtrAux_lt (cum : List Int) (count : Int) (fuel start : Nat)
    (hfuel : cum.length ≤ start + fuel)
    (hpos : 0 < cum.length)
    (hstart : start ≤ cum.length - 1)
    (hlast : count < cum.get ⟨cum.length - 1, by omega⟩) :
    findPtrAux cum count fuel start < cum.length := by
  induction fuel generalizing start with
  | zero => omega
  | succ fuel ih =>
    have hs : start < cum.length := by omega
    simp only [findPtrAux, hs, dif_pos]
    split
    · exact hs
    · rename_i hnot
      have hne : start ≠ cum.length - 1 := by
        intro hcontra
        apply hnot
        have hfin : (⟨start, hs⟩ : Fin cum.length) = ⟨cum.length - 1, by omega⟩ :=
          Fin.ext (by simpa using hcontra)
        rw [hfin]
        exact hlast
      exact ih (start + 1) (by omega) (by omega) hlast

theorem findPtr_lt (cum : List Int) (count : Int) (start : Nat)
    (hpos : 0 < cum.length)
    (hstart : start ≤ cum.length - 1)
    (hlast : count < cum.get ⟨cum.length - 1, by omega⟩) :
    findPtr cum count start < cum.length :=
  findPtrAux_lt cum count _ start (by omega) hpos hstart hlast

/-- `col[i] += 1`. -/
def bumpAt : List Int → Nat → List Int
  | [], _ => []
  | x :: xs, 0 => (x + 1) :: xs
  | x :: xs, n + 1 => x :: bumpAt xs n

theorem length_bumpAt (l : List Int) (i : Nat) :
    (bumpAt l i).length = l.length := by
  induction l generalizing i with
  | nil => rfl
  | cons x xs ih =>
    cases i with
    | zero => rfl
    | succ i => simp [bumpAt, ih]

theorem sum_bumpAt (l : List Int) (i : Nat) (h : i < l.length) :
    (bumpAt l i).sum = l.sum + 1 := by
  induction l generalizing i with
  | nil => simp at h
  | cons x xs ih =>
    cases i with
    | zero => simp [bumpAt]; ring
    | succ i =>
      simp only [bumpAt, List.sum_cons]
      rw [ih i (by simpa using h)]
      ring

theorem nonneg_bumpAt (l : List Int) (i : Nat) (h : ∀ x ∈ l, 0 ≤ x) :
    ∀ x ∈ bumpAt l i, 0 ≤ x := by
  induction l generalizing i with
  | nil => simp [bumpAt]
  | cons y ys ih =>
    cases i with
    | zero =>
      intro x hx
      rcases List.mem_cons.mp hx with hx | hx
      · have := h y (by simp)
        omega
      · exact h x (List.mem_cons_of_mem _ hx)
    | succ i =>
      intro x hx
      rcases List.mem_cons.mp hx with hx | hx
      · exact hx ▸ h y (by simp)
      · exact ih i (fun z hz => h z (List.mem_cons_of_mem _ hz)) x hx

/-- The `for count in sample` loop of `downsample_cell`: walk the sorted
draws against the cumulative sums, bumping the located bin. -/
def dsLoop (cum : List Int) : List Nat → Nat → List Int → List Int
  | [], _, col => col
  | d :: ds, ptr, col =>
    let p := findPtr cum (d : Int) ptr
    dsLoop cum ds p (bumpAt col p)

theorem dsLoop_spec (cum : List Int) (ds : List Nat) (start : Nat)
    (col : List Int)
    (hlen : cum.length = col.length) (hpos : 0 < col.length)
    (hstart : start ≤ col.length - 1)
    (hd : ∀ d ∈ ds, (d : Int) < cum.get ⟨cum.length - 1, by omega⟩) :
    (dsLoop cum ds start col).length = col.length ∧
      (dsLoop cum ds start col).sum = col.sum + ds.length ∧
      ((∀ x ∈ col, 0 ≤ x) → ∀ x ∈ dsLoop cum ds start col, 0 ≤ x) := by
  induction ds generalizing start col with
  | nil => simp [dsLoop]
  | cons d ds ih =>
    have hp : findPtr cum (d : Int) start < cum.length :=
      findPtr_lt cum d start (by omega) (by omega)
        (hd d (by simp))
    have hplen : findPtr cum (d : Int) start < col.length := by omega
    simp only [dsLoop]
    have hrec := ih (findPtr cum (d : Int) start) (bumpAt col (findPtr cum (d : Int) start))
      (by rw [length_bumpAt]; exact hlen)
      (by rw [length_bumpAt]; exact hpos)
      (by rw [length_bumpAt]; omega)
      (fun e he => hd e (List.mem_cons_of_mem _ he))
    refine ⟨?_, ?_, ?_⟩
    · rw [hrec.1, length_bumpAt]
    · rw [hrec.2.1, sum_bumpAt col _ hplen]
      simp only [List.length_cons]
      push_cast
      ring
    · intro hnn
      exact hrec.2.2 (nonneg_bumpAt col _ hnn)

/-- `downsample_cell(col, target, random_state, replace)`
(`simple.py` lines 888-913): reseed from `random_state` (ignoring the
incoming generator state `g`), cumulative sums, draw `target` values from
`[0, total)` with or without replacement, sort, and merge-walk.  The
`inplace` flag of the source only chooses between writing into `col` and a
fresh buffer; both produce the value computed here. -/
def downsample_cell (g : Nat) (col : List Int) (target : Nat) (seed : Nat)
    (replace : Bool) : List Int :=
  let s0 := lcgInit seed
  let cum := cumsum col
  let total := (cum.getLast?).getD 0
  let sample :=
    if replace then npChoiceReplace s0 total.toNat target
    else (npChoiceNoReplace s0 total.toNat target).getD []
  dsLoop cum (sortNat sample) 0 (List.replicate col.length 0)

/-- `downsample_counts` (`simple.py` lines 838-886, dense path): cells whose
total exceeds `target_counts` are downsampled row-by-row (each row reseeding
from the same `random_state`); all other rows are left as they are. -/
def downsample_counts (g : Nat) (M : List (List Int)) (target : Nat)
    (seed : Nat) (replace : Bool) : List (List Int) :=
  M.map (fun row =>
    if (target : Int) < row.sum then downsample_cell g row target seed replace
    else row)

theorem getD_map_eq {α β : Type _} (f : α → β) (l : List α) (i : Nat)
    (hi : i < l.length) (d : β) :
    (l.map f).getD i d = f (l.get ⟨i, hi⟩) := by
  rw [List.getD_eq_getElem _ _ (by simpa using hi), List.getElem_map]
  simp

theorem downsample_cell_replace_spec (g : Nat) (col : List Int)
    (target seed : Nat) (h : (target : Int) < col.sum) :
    (downsample_cell g col target seed true).length = col.length ∧
      (downsample_cell g col target seed true).sum = target ∧
      ∀ x ∈ downsample_cell g col target seed true, 0 ≤ x := by
  have hne : col ≠ [] := by
    intro hc
    rw [hc] at h
    simp at h
    omega
  have hpos : 0 < col.length := List.length_pos.mpr hne
  have hlenc : (cumsum col).length = col.length := length_cumsumFrom 0 col
  have hlast : (cumsum col).getLast? = some col.sum := by
    simpa using getLast?_cumsumFrom 0 col hne
  have htotal : ((cumsum col).getLast?).getD 0 = col.sum := by rw [hlast]; rfl
  have hget : (cumsum col).get ⟨(cumsum col).length - 1, by omega⟩ = col.sum := by
    have := (List.getLast?_eq_getElem? (cumsum col)).symm.trans hlast
    rw [List.getElem?_eq_getElem (by omega)] at this
    simpa using this
  have hsum_pos : 0 < col.sum.toNat := by omega
  have hsample : ∀ d ∈ sortNat (npChoiceReplace (lcgInit seed) col.sum.toNat target),
      (d : Int) < (cumsum col).get ⟨(cumsum col).length - 1, by omega⟩ := by
    intro d hd
    rw [hget]
    have hd2 : d ∈ npChoiceReplace (lcgInit seed) col.sum.toNat target :=
      (mem_sortNat _ d).mp hd
    have := mem_npChoiceReplace_lt (lcgInit seed) col.sum.toNat target hsum_pos d hd2
    omega
  have hds := dsLoop_spec (cumsum col)
    (sortNat (npChoiceReplace (lcgInit seed) col.sum.toNat target)) 0
    (List.replicate col.length 0)
    (by simpa using hlenc) (by simpa using hpos) (by omega) hsample
  have hcell : downsample_cell g col target seed true =
      dsLoop (cumsum col)
        (sortNat (npChoiceReplace (lcgInit seed) col.sum.toNat target)) 0
        (List.replicate col.length 0) := by
    simp only [downsample_cell, htotal, if_pos]
  rw [hcell]
  refine ⟨by simpa using hds.1, ?_, ?_⟩
  · rw [hds.2.1]
    rw [length_sortNat, length_npChoiceReplace]
    simp
  · exact hds.2.2 (by simp)

/-- **C1.** For every integer count matrix, a row whose total strictly
exceeds `target_counts` is replaced by `downsample_counts` (via
`downsample_cell` with `replace=true`) by a same-length vector of
nonnegative integers summing exactly to `target_counts`, while a row whose
total is at or under `target_counts` passes through unchanged. -/
theorem C1_downsample_counts_spec (M : List (List Int)) (target seed g : Nat)
    (i : Nat) (hi : i < M.length) :
    (downsample_counts g M target seed true).length = M.length ∧
    ((M.get ⟨i, hi⟩).sum ≤ (target : Int) →
      (downsample_counts g M target seed true).getD i [] = M.get ⟨i, hi⟩) ∧
    ((target : Int) < (M.get ⟨i, hi⟩).sum →
      ((downsample_counts g M target seed true).getD i []).length =
          (M.get ⟨i, hi⟩).length ∧
        ((downsample_counts g M target seed true).getD i []).sum = target ∧
        ∀ x ∈ (downsample_counts g M target seed true).getD i [], 0 ≤ x) := by
  have hrow : (downsample_counts g M target seed true).getD i [] =
      if (target : Int) < (M.get ⟨i, hi⟩).sum then
        downsample_cell g (M.get ⟨i, hi⟩) target seed true
      else M.get ⟨i, hi⟩ := by
    simp only [downsample_counts]
    exact getD_map_eq _ M i hi []
  refine ⟨by simp [downsample_counts], ?_, ?_⟩
  · intro hle
    rw [hrow, if_neg (by omega)]
  · intro hgt
    rw [hrow, if_pos hgt]
    exact downsample_cell_replace_spec g (M.get ⟨i, hi⟩) target seed hgt

theorem C1_downsample_counts_witness :
    (((0 : Nat) < ([[0, 0, 10], [1, 2, 0]] : List (List Int)).length ∧
        (1 : Nat) < ([[0, 0, 10], [1, 2, 0]] : List (List Int)).length) ∧
      ((5 : Int) < ([0, 0, 10] : List Int).sum ∧
        ([1, 2, 0] : List Int).sum ≤ (5 : Int))) ∧
    ((downsample_counts 0 [[0, 0, 10], [1, 2, 0]] 5 0 true).getD 0 []).sum = 5 ∧
      (downsample_counts 0 [[0, 0, 10], [1, 2, 0]] 5 0 true).getD 1 [] =
        [1, 2, 0] := by
  refine ⟨⟨⟨by decide, by decide⟩, by decide, by decide⟩, ?_, ?_⟩
  · exact ((C1_downsample_counts_spec [[0, 0, 10], [1, 2, 0]] 5 0 0 0
      (by decide)).2.2 (by decide)).2.1
  · exact (C1_downsample_counts_spec [[0, 0, 10], [1, 2, 0]] 5 0 0 1
      (by decide)).2.1 (by decide)

/-- Truncation toward zero: the effect of `astype(np.integer)` (and of
Python `int(·)`) on a float value.  `num.tdiv den` is exactly
round-toward-zero on the reduced fraction. -/
def truncQ (q : ℚ) : Int := q.num.tdiv q.den

/-- `downsample_counts` on a float-valued matrix (`simple.py` line 866):
`adata.X = adata.X.astype(np.integer)` runs before any totals are computed
or any row is resampled, and it runs regardless of the `copy` flag (the flag
only chooses whether `adata` itself was copied first, `simple.py` lines
864-865), so the whole matrix — including rows never selected for
downsampling — is truncated toward zero to integers. -/
def downsample_counts_float (g : Nat) (M : List (List ℚ)) (target : Nat)
    (seed : Nat) (replace : Bool) : List (List Int) :=
  downsample_counts g (M.map (fun row => row.map truncQ)) target seed replace

/-- **C10.** `downsample_counts` casts the entire matrix to integers
(truncating float values toward zero) before any resampling: a row whose
post-cast total is at or under `target_counts` — a row downsampling never
touches — still comes out truncated, not equal to its original float
values. -/
theorem C10_downsample_cast_spec (M : List (List ℚ)) (target seed g : Nat)
    (replace : Bool) (i : Nat) (hi : i < M.length) :
    (downsample_counts_float g M target seed replace).length = M.length ∧
    (((M.get ⟨i, hi⟩).map truncQ).sum ≤ (target : Int) →
      (downsample_counts_float g M target seed replace).getD i [] =
        (M.get ⟨i, hi⟩).map truncQ) := by
  have hrow : (downsample_counts_float g M target seed replace).getD i [] =
      if (target : Int) < ((M.get ⟨i, hi⟩).map truncQ).sum then
        downsample_cell g ((M.get ⟨i, hi⟩).map truncQ) target seed replace
      else (M.get ⟨i, hi⟩).map truncQ := by
    simp only [downsample_counts_float, downsample_counts, List.map_map]
    exact getD_map_eq _ M i hi []
  refine ⟨by simp [downsample_counts_float, downsample_counts], ?_⟩
  intro hle
  rw [hrow, if_neg (by omega)]

theorem C10_downsample_cast_witness :
    ((0 : Nat) < ([[mkRat 3 2, mkRat 1 2], [5, 6]] : List (List ℚ)).length ∧
      ((([[mkRat 3 2, mkRat 1 2], [5, 6]] : List (List ℚ)).get ⟨0, by decide⟩).map
          truncQ).sum ≤ (5 : Int)) ∧
    (downsample_counts_float 0 [[mkRat 3 2, mkRat 1 2], [5, 6]] 5 0 true).getD 0 [] =
        [1, 0] ∧
      (downsample_counts_float 0 [[mkRat 3 2, mkRat 1 2], [5, 6]] 5 0 true).getD 0 [] ≠
        [2, 1] := by
  refine ⟨⟨by decide, by decide⟩, ?_⟩
  have h := (C10_downsample_cast_spec [[mkRat 3 2, mkRat 1 2], [5, 6]] 5 0 0 true 0
    (by decide)).2 (by decide)
  rw [h]
  constructor
  · decide
  · decide

/-! ### Subsampler: `subsample` (`simple.py` lines 792-835)

`subsample` calls `np.random.seed(random_state)` first, validates `fraction`,
computes the new observation count (`n_obs` takes precedence; otherwise
`int(fraction * old_n_obs)`), and draws that many distinct row indices
without replacement.  `n_obs` itself is not validated by `subsample`; a
request larger than the population fails inside `np.random.choice`.
The matrix/`AnnData` handling then subsets rows by the returned indices. -/
def subsample_indices (g : Nat) (totalRows : Nat) (fraction : Option ℚ)
    (nObs : Option Nat) (seed : Nat) : Except String (List Nat) :=
  let s0 := lcgInit seed
  match nObs, fraction with
  | some n, _ =>
    match npChoiceNoReplace s0 totalRows n with
    | some l => .ok l
    | none => .error "Cannot take a larger sample than population"
  | none, some f =>
    if 1 < f ∨ f < 0 then .error "fraction needs to be within 0 and 1"
    else
      match npChoiceNoReplace s0 totalRows (truncQ (f * totalRows)).toNat with
      | some l => .ok l
      | none => .error "Cannot take a larger sample than population"
  | none, none => .error "Either pass n_obs or fraction."

theorem truncQ_eq_floor (q : ℚ) (h : 0 ≤ q) : truncQ q = ⌊q⌋ := by
  rw [truncQ, Rat.floor_def]
  exact Int.tdiv_eq_ediv (Rat.num_nonneg.mpr h) (Int.natCast_nonneg _)

/-- **C3.** Randomized operations derive their draws from the seed argument
alone: the ambient generator state `g1`/`g2` present before the call never
influences `downsample_counts` or `subsample` (both reseed via
`np.random.seed(random_state)` on entry), so two invocations with the same
data and seed give identical output; concretely, for every seed `S`,
`subsample(total_rows=10, fraction=1/2, seed=S)` yields exactly 5 distinct
indices in `[0, 10)`. -/
theorem C3_seed_determinism :
    (∀ g1 g2 M target seed replace,
        downsample_counts g1 M target seed replace =
          downsample_counts g2 M target seed replace) ∧
    (∀ g1 g2 totalRows fraction nObs seed,
        subsample_indices g1 totalRows fraction nObs seed =
          subsample_indices g2 totalRows fraction nObs seed) ∧
    (∀ seed g, ∃ l, subsample_indices g 10 (some (mkRat 1 2)) none seed = .ok l ∧
        l.length = 5 ∧ l.Nodup ∧ ∀ x ∈ l, x < 10) := by
  refine ⟨fun g1 g2 M target seed replace => rfl,
    fun g1 g2 totalRows fraction nObs seed => rfl, fun seed g => ?_⟩
  have hval : ¬(1 < (mkRat 1 2 : ℚ) ∨ (mkRat 1 2 : ℚ) < 0) := by decide
  have hmul : (mkRat 1 2 : ℚ) * (10 : Nat) = 5 := by
    rw [Rat.mkRat_eq_divInt, Rat.divInt_eq_div]
    norm_num
  have hcount : (truncQ ((mkRat 1 2 : ℚ) * (10 : Nat))).toNat = 5 := by
    rw [hmul]
    decide
  refine ⟨drawNoRep (lcgInit seed) 5 (List.range 10), ?_, ?_, ?_, ?_⟩
  · simp only [subsample_indices, hval, if_neg, not_false_iff, hcount,
      npChoiceNoReplace]
    rw [if_pos (by simp)]
  · exact length_drawNoRep _ 5 _ (by simp)
  · exact nodup_drawNoRep _ 5 _ (List.nodup_range _)
  · intro x hx
    have := mem_drawNoRep _ 5 _ x hx
    simpa using List.mem_range.mp (by simpa using this)

/-- **C9 counterexample.** The claim says the subsample size is
`round(fraction * total_rows)`; the source computes
`int(fraction * old_n_obs)`, which truncates.  At `total_rows = 3`,
`fraction = 1/2` the code selects 1 index while `round(3/2) = 2`. -/
theorem C9_subsample_round_counterexample :
    (∃ l, subsample_indices 0 3 (some (mkRat 1 2)) none 0 = .ok l ∧
        l.length = 1) ∧
      round ((mkRat 1 2 : ℚ) * (3 : Nat)) = 2 := by
  have hmul : (mkRat 1 2 : ℚ) * (3 : Nat) = mkRat 3 2 := by
    rw [Rat.mkRat_eq_divInt, Rat.mkRat_eq_divInt, Rat.divInt_eq_div,
      Rat.divInt_eq_div]
    push_cast
    norm_num
  constructor
  · have hval : ¬(1 < (mkRat 1 2 : ℚ) ∨ (mkRat 1 2 : ℚ) < 0) := by decide
    have hcount : (truncQ ((mkRat 1 2 : ℚ) * (3 : Nat))).toNat = 1 := by
      rw [hmul]
      decide
    refine ⟨drawNoRep (lcgInit 0) 1 (List.range 3), ?_, ?_⟩
    · simp only [subsample_indices, hval, if_neg, not_false_iff, hcount,
        npChoiceNoReplace]
      rw [if_pos (by simp)]
    · exact length_drawNoRep _ 1 _ (by simp)
  · rw [hmul]
    have h32 : (mkRat 3 2 : ℚ) = 3 / 2 := by
      rw [Rat.mkRat_eq_divInt, Rat.divInt_eq_div]
      norm_num
    rw [h32, round_eq]
    norm_num

/-- **C9 (amended).** `subsample` selects distinct row indices uniformly
without replacement; the sample size for a fraction is
`int(fraction * total_rows)` — truncation toward zero, not rounding — and a
fraction outside `[0, 1]` is rejected; an absolute count is not range-checked
by `subsample` itself, but a count exceeding `total_rows` makes the
without-replacement draw fail, so only counts in `[0, total_rows]` succeed. -/
theorem C9_subsample_spec (g totalRows seed : Nat) (f : ℚ) (n : Nat) :
    ((0 ≤ f → f ≤ 1 →
        ∃ l, subsample_indices g totalRows (some f) none seed = .ok l ∧
          l.length = (truncQ (f * totalRows)).toNat ∧ l.Nodup ∧
          ∀ x ∈ l, x < totalRows) ∧
      ((1 < f ∨ f < 0) →
        ∃ e, subsample_indices g totalRows (some f) none seed = .error e)) ∧
    ((n ≤ totalRows →
        ∃ l, subsample_indices g totalRows none (some n) seed = .ok l ∧
          l.length = n ∧ l.Nodup ∧ ∀ x ∈ l, x < totalRows) ∧
      (totalRows < n →
        ∃ e, subsample_indices g totalRows none (some n) seed = .error e)) := by
  refine ⟨⟨?_, ?_⟩, ?_, ?_⟩
  · intro hf0 hf1
    have h0 : (0 : ℚ) ≤ f * totalRows := mul_nonneg hf0 (by positivity)
    have hfl : truncQ (f * totalRows) = ⌊(f * totalRows : ℚ)⌋ :=
      truncQ_eq_floor _ h0
    have hle : (f * totalRows : ℚ) ≤ ((totalRows : Nat) : ℚ) := by
      calc (f * totalRows : ℚ) ≤ 1 * totalRows := by
            exact mul_le_mul_of_nonneg_right hf1 (by positivity)
        _ = totalRows := one_mul _
    have hfloor : ⌊(f * totalRows : ℚ)⌋ ≤ (totalRows : Int) := by
      calc ⌊(f * totalRows : ℚ)⌋ ≤ ⌊((totalRows : Nat) : ℚ)⌋ :=
            Int.floor_le_floor hle
        _ = totalRows := Int.floor_natCast _
    have hk : (truncQ (f * totalRows)).toNat ≤ totalRows := by omega
    refine ⟨drawNoRep (lcgInit seed) (truncQ (f * totalRows)).toNat
      (List.range totalRows), ?_, ?_, ?_, ?_⟩
    · simp only [subsample_indices, npChoiceNoReplace]
      rw [if_neg (by push_neg; exact ⟨hf1, hf0⟩), if_pos (by simpa using hk)]
    · exact length_drawNoRep _ _ _ (by simpa using hk)
    · exact nodup_drawNoRep _ _ _ (List.nodup_range _)
    · intro x hx
      exact List.mem_range.mp (mem_drawNoRep _ _ _ x hx)
  · intro hbad
    exact ⟨_, by simp only [subsample_indices]; rw [if_pos hbad]⟩
  · intro hn
    refine ⟨drawNoRep (lcgInit seed) n (List.range totalRows), ?_, ?_, ?_, ?_⟩
    · simp only [subsample_indices, npChoiceNoReplace]
      rw [if_pos (by simpa using hn)]
    · exact length_drawNoRep _ _ _ (by simpa using hn)
    · exact nodup_drawNoRep _ _ _ (List.nodup_range _)
    · intro x hx
      exact List.mem_range.mp (mem_drawNoRep _ _ _ x hx)
  · intro hn
    refine ⟨"Cannot take a larger sample than population", ?_⟩
    simp only [subsample_indices, npChoiceNoReplace]
    rw [if_neg (by simpa using hn)]

theorem C9_subsample_spec_witness :
    (((0 : ℚ) ≤ mkRat 1 2 ∧ (mkRat 1 2 : ℚ) ≤ 1) ∧
      (1 < (2 : ℚ) ∨ (2 : ℚ) < 0) ∧ (3 : Nat) ≤ 10 ∧ (10 : Nat) < 11) ∧
    (∃ l, subsample_indices 0 10 (some (mkRat 1 2)) none 0 = .ok l ∧
        l.length = (truncQ ((mkRat 1 2 : ℚ) * (10 : Nat))).toNat ∧ l.Nodup ∧
        ∀ x ∈ l, x < 10) ∧
    (∃ e, subsample_indices 0 10 (some 2) none 0 = .error e) ∧
    (∃ l, subsample_indices 0 10 none (some 3) 0 = .ok l ∧ l.length = 3 ∧
        l.Nodup ∧ ∀ x ∈ l, x < 10) ∧
    (∃ e, subsample_indices 0 10 none (some 11) 0 = .error e) := by
  refine ⟨⟨⟨by decide, by decide⟩, by decide, by decide, by decide⟩, ?_, ?_, ?_, ?_⟩
  · exact (C9_subsample_spec 0 10 0 (mkRat 1 2) 0).1.1 (by decide) (by decide)
  · exact (C9_subsample_spec 0 10 0 2 0).1.2 (by decide)
  · exact (C9_subsample_spec 0 10 0 0 3).2.1 (by decide)
  · exact (C9_subsample_spec 0 10 0 0 11).2.2 (by decide)

/-! ### Filter: `filter_cells` / `filter_genes` (`simple.py` lines 48-239)

`FilterOpts` collects the four optional bounds of `filter_cells`
(`min_counts`, `min_genes`, `max_counts`, `max_genes`); for `filter_genes`
the same four slots read as `min_counts`, `min_cells`, `max_counts`,
`max_cells`. -/
structure FilterOpts where
  minCounts : Option ℚ
  minGenes : Option ℚ
  maxCounts : Option ℚ
  maxGenes : Option ℚ
deriving DecidableEq

/-- The validation prologue of `filter_cells` (`simple.py` lines 117-124):
exactly three pairs plus the all-`None` case raise `ValueError`. -/
def filter_cells_raises (o : FilterOpts) : Bool :=
  (o.minGenes.isSome && o.minCounts.isSome) ||
  (o.minGenes.isSome && o.maxGenes.isSome) ||
  (o.minCounts.isSome && o.maxCounts.isSome) ||
  (o.minGenes.isNone && o.minCounts.isNone && o.maxGenes.isNone &&
    o.maxCounts.isNone)

/-- The validation prologue of `filter_genes` (`simple.py` lines 196-202):
anything other than exactly one supplied bound raises `ValueError`. -/
def filter_genes_raises (o : FilterOpts) : Bool :=
  ((if o.minCounts.isSome then 1 else 0) +
      (if o.minGenes.isSome then 1 else 0) +
      (if o.maxCounts.isSome then 1 else 0) +
      (if o.maxGenes.isSome then 1 else 0) : Nat) ≠ 1

/-- Per-row nonzero count, the `(X > 0).sum(axis=1)` statistic. -/
def nnzRow (r : List ℚ) : ℚ := ((r.filter (fun x => decide (0 < x))).length : ℚ)

/-- Matrix path of `filter_cells` (`simple.py` lines 132-154): after the
validation prologue, the per-row statistic is the row sum when neither gene
bound is supplied and the row nonzero count otherwise; a min mask is
computed first and then overwritten by the max mask whenever a max bound is
present.  (If no bound at all survived, `cell_subset` would be unbound —
unreachable after validation.) -/
def filter_cells_mat (M : List (List ℚ)) (o : FilterOpts) :
    Except String (List Bool × List ℚ) :=
  if filter_cells_raises o then .error "ValueError" else
  let minNumber := if o.minGenes.isSome then o.minGenes else o.minCounts
  let maxNumber := if o.maxGenes.isSome then o.maxGenes else o.maxCounts
  let stat := M.map (fun r =>
    if o.minGenes.isNone ∧ o.maxGenes.isNone then r.sum else nnzRow r)
  let mask1 : Option (List Bool) :=
    match minNumber with
    | some mn => some (stat.map (fun s => decide (mn ≤ s)))
    | none => none
  let mask2 : Option (List Bool) :=
    match maxNumber with
    | some mx => some (stat.map (fun s => decide (s ≤ mx)))
    | none => mask1
  match mask2 with
  | some m => .ok (m, stat)
  | none => .error "UnboundLocalError"

/-- **C4 counterexample.** `filter_cells` with both `max_counts` and
`max_genes` supplied is not rejected: validation passes and a mask is
computed, contradicting the claim that any call with more than one bound
errors before mask computation. -/
theorem C4_two_bounds_accepted_counterexample :
    filter_cells_raises ⟨none, none, some 1, some 1⟩ = false ∧
      ∃ m st, filter_cells_mat [[1]] ⟨none, none, some 1, some 1⟩ =
        .ok (m, st) ∧ m = [true] := by
  refine ⟨by decide, [true], [nnzRow [1]], ?_, rfl⟩
  simp only [filter_cells_mat, filter_cells_raises]
  norm_num [nnzRow]

/-- **C4 (amended).** `filter_genes` accepts a call exactly when exactly one
of its four bounds is supplied; `filter_cells` rejects only three specific
pairs (`min_counts`+`min_genes`, `min_genes`+`max_genes`,
`min_counts`+`max_counts`) and the no-bound case — the mixed pairs
(`min_counts`+`max_genes`, `min_genes`+`max_counts`,
`max_counts`+`max_genes`) are accepted, and then the mask is computed from
the max bound alone (the min mask being overwritten); e.g. with
`max_counts=a, max_genes=b` the mask is `nonzero-count ≤ b`, ignoring `a`. -/
theorem C4_filter_bounds_spec (M : List (List ℚ)) (a b : ℚ) :
    (∀ o : FilterOpts, filter_genes_raises o = false ↔
      ((o.minCounts.isSome ∧ o.minGenes = none ∧ o.maxCounts = none ∧
          o.maxGenes = none) ∨
        (o.minCounts = none ∧ o.minGenes.isSome ∧ o.maxCounts = none ∧
          o.maxGenes = none) ∨
        (o.minCounts = none ∧ o.minGenes = none ∧ o.maxCounts.isSome ∧
          o.maxGenes = none) ∨
        (o.minCounts = none ∧ o.minGenes = none ∧ o.maxCounts = none ∧
          o.maxGenes.isSome))) ∧
    (∀ o : FilterOpts, (∃ e, filter_cells_mat M o = .error e) ↔
      filter_cells_raises o = true) ∧
    filter_cells_mat M ⟨none, none, some a, some b⟩ =
      .ok (M.map (fun r => decide (nnzRow r ≤ b)), M.map nnzRow) := by
  refine ⟨?_, ?_, ?_⟩
  · rintro ⟨mc, mg, xc, xg⟩
    rcases mc with _ | mc <;> rcases mg with _ | mg <;>
      rcases xc with _ | xc <;> rcases xg with _ | xg <;>
      simp [filter_genes_raises]
  · rintro ⟨mc, mg, xc, xg⟩
    rcases mc with _ | mc <;> rcases mg with _ | mg <;>
      rcases xc with _ | xc <;> rcases xg with _ | xg <;>
      simp [filter_cells_mat, filter_cells_raises]
  · simp only [filter_cells_mat, filter_cells_raises]
    norm_num

/-! ### Normalizer: `normalize_per_cell` (`simple.py` lines 470-576, matrix
path) -/

/-- Insert into a (weakly ascending) list of rationals. -/
def insertSortedQ (x : ℚ) : List ℚ → List ℚ
  | [] => [x]
  | y :: ys => if x ≤ y then x :: y :: ys else y :: insertSortedQ x ys

/-- Ascending sort of a list of rationals (models `np.sort`). -/
def sortQ (l : List ℚ) : List ℚ := l.foldr insertSortedQ []

theorem length_insertSortedQ (x : ℚ) (l : List ℚ) :
    (insertSortedQ x l).length = l.length + 1 := by
  induction l with
  | nil => rfl
  | cons y ys ih =>
    simp only [insertSortedQ]
    split
    · simp
    · simp [ih]

theorem mem_insertSortedQ (x : ℚ) (l : List ℚ) (z : ℚ) :
    z ∈ insertSortedQ x l ↔ z = x ∨ z ∈ l := by
  induction l with
  | nil => simp [insertSortedQ]
  | cons y ys ih =>
    simp only [insertSortedQ]
    split
    · simp only [List.mem_cons]
    · simp only [List.mem_cons, ih]
      tauto

theorem length_sortQ (l : List ℚ) : (sortQ l).length = l.length := by
  induction l with
  | nil => rfl
  | cons x xs ih =>
    simp only [sortQ, List.foldr] at ih ⊢
    rw [length_insertSortedQ, ih, List.length_cons]

theorem mem_sortQ (l : List ℚ) (z : ℚ) : z ∈ sortQ l ↔ z ∈ l := by
  induction l with
  | nil => simp [sortQ]
  | cons x xs ih =>
    simp only [sortQ, List.foldr] at ih ⊢
    rw [mem_insertSortedQ, ih, List.mem_cons]

/-- `np.median`: the middle element of the sorted list for odd length, the
average of the two middle elements for even length.  (`np.median([])` is NaN
with a warning; the theorems below carry a nonemptiness hypothesis.) -/
def npMedian (l : List ℚ) : ℚ :=
  let s := sortQ l
  if l.length % 2 = 1 then s.getD (l.length / 2) 0
  else (s.getD (l.length / 2 - 1) 0 + s.getD (l.length / 2) 0) / 2

theorem npMedian_one_le (l : List ℚ) (hne : l ≠ [])
    (hall : ∀ x ∈ l, 1 ≤ x) : 1 ≤ npMedian l := by
  have hlen : (sortQ l).length = l.length := length_sortQ l
  have hpos : 0 < l.length := List.length_pos.mpr hne
  have hmem : ∀ i (hi : i < l.length), 1 ≤ (sortQ l).getD i 0 := by
    intro i hi
    rw [List.getD_eq_getElem _ _ (by omega)]
    exact hall _ ((mem_sortQ l _).mp (List.getElem_mem (by omega)))
  rw [npMedian]
  split
  · exact hmem _ (Nat.div_lt_self hpos one_lt_two)
  · have h2 : 2 ≤ l.length := by
      rcases Nat.lt_or_ge l.length 2 with h | h
      · interval_cases hl : l.length <;> omega
      · exact h
    have ha := hmem (l.length / 2 - 1) (by omega)
    have hb := hmem (l.length / 2) (Nat.div_lt_self hpos one_lt_two)
    linarith

/-- The scaling core of the matrix path of `normalize_per_cell`
(`simple.py` lines 568-575): the default target is the median of the
per-row totals (computed before zero replacement); totals equal to 0 are
then bumped to 1 (`counts_per_cell += counts_per_cell == 0`); finally each
row is divided elementwise by `total / target`. -/
def normCore (X : List (List ℚ)) (counts : List ℚ) (after? : Option ℚ) :
    List (List ℚ) :=
  let after := after?.getD (npMedian counts)
  let counts1 := counts.map (fun c => if c = 0 then c + 1 else c)
  let counts2 := counts1.map (fun c => c / after)
  List.zipWith (fun row c => row.map (fun x => x / c)) X counts2

/-- Matrix path of `normalize_per_cell` (`simple.py` lines 560-576).  With
`counts_per_cell = None` the rows are first filtered by `min_counts`
(requiring `copy=True`, else `ValueError` — and then the scaled matrix is
returned); with precomputed counts the Python function returns the scaled
matrix when `copy=True` and `None` (pure in-place mutation) when
`copy=False`. -/
def normalize_per_cell_mat (X : List (List ℚ)) (after? : Option ℚ)
    (counts? : Option (List ℚ)) (copy : Bool) (minCounts : ℚ) :
    Except String (Option (List (List ℚ))) :=
  match counts? with
  | none =>
    if copy = false then .error "Can only be run with copy=True"
    else
      let survivors := X.filter (fun r => decide (minCounts ≤ r.sum))
      let counts := survivors.map (fun r => r.sum)
      .ok (some (normCore survivors counts after?))
  | some counts => .ok (if copy then some (normCore X counts after?) else none)

/-- The target total actually used by the scaling step of
`normalize_per_cell` (`simple.py` lines 568-569): the explicit
`counts_per_cell_after` if given, else the median of the per-row totals. -/
def normalize_used_target (counts : List ℚ) (after? : Option ℚ) : ℚ :=
  after?.getD (npMedian counts)

theorem sum_map_div (l : List ℚ) (c : ℚ) :
    (l.map (fun x => x / c)).sum = l.sum / c := by
  induction l with
  | nil => simp
  | cons x xs ih => simp [ih, add_div]

theorem map_bump_eq_self (l : List ℚ) (h : ∀ c ∈ l, c ≠ 0) :
    l.map (fun c => if c = 0 then c + 1 else c) = l := by
  induction l with
  | nil => rfl
  | cons x xs ih =>
    rw [List.map_cons, if_neg (h x (by simp)), ih]
    intro c hc
    exact h c (List.mem_cons_of_mem _ hc)

theorem normCore_default_length (S : List (List ℚ)) (counts : List ℚ)
    (h : counts.length = S.length) :
    (normCore S counts none).length = S.length := by
  simp [normCore, List.length_zipWith, h]

theorem normCore_default_row_sum (S : List (List ℚ))
    (hnz : ∀ r ∈ S, r.sum ≠ 0) (i : Nat) (hi : i < S.length)
    (ht : npMedian (S.map (fun r => r.sum)) ≠ 0) :
    ((normCore S (S.map (fun r => r.sum)) none).getD i []).sum =
      npMedian (S.map (fun r => r.sum)) := by
  have hbump : (S.map (fun r => r.sum)).map
      (fun c => if c = 0 then c + 1 else c) = S.map (fun r => r.sum) := by
    apply map_bump_eq_self
    intro c hc
    obtain ⟨r, hr, rfl⟩ := List.mem_map.mp hc
    exact hnz r hr
  have hcore : normCore S (S.map (fun r => r.sum)) none =
      List.zipWith (fun row c => row.map (fun x => x / c)) S
        ((S.map (fun r => r.sum)).map
          (fun c => c / npMedian (S.map (fun r => r.sum)))) := by
    simp only [normCore, Option.getD_none, hbump]
  rw [hcore]
  have hlen2 : i < (List.zipWith (fun row c => row.map (fun x => x / c)) S
      ((S.map (fun r => r.sum)).map
        (fun c => c / npMedian (S.map (fun r => r.sum))))).length := by
    rw [List.length_zipWith]
    simp only [List.length_map]
    omega
  rw [List.getD_eq_getElem _ _ hlen2, List.getElem_zipWith]
  rw [List.getElem_map, List.getElem_map]
  rw [sum_map_div, div_div_eq_mul_div,
    mul_div_cancel_left₀ _ (hnz _ (List.getElem_mem hi))]

/-- **C2.** With `counts_per_cell_after = None` and `min_counts = 1`,
`normalize_per_cell` uses as target the median of the surviving row totals —
which equals the median of the post-zero-replacement totals, since every
surviving total is ≥ 1 and thus not replaced (zero-total rows are filtered
out before scaling at `min_counts = 1`) — and scales every surviving row so
that its sum equals that target. -/
theorem C2_normalize_median_target (X : List (List ℚ))
    (hne : X.filter (fun r => decide ((1 : ℚ) ≤ r.sum)) ≠ []) :
    ∃ out,
      normalize_per_cell_mat X none none true 1 = .ok (some out) ∧
      out.length = (X.filter (fun r => decide ((1 : ℚ) ≤ r.sum))).length ∧
      npMedian (((X.filter (fun r => decide ((1 : ℚ) ≤ r.sum))).map
          (fun r => r.sum)).map (fun c => if c = 0 then c + 1 else c)) =
        normalize_used_target
          ((X.filter (fun r => decide ((1 : ℚ) ≤ r.sum))).map (fun r => r.sum))
          none ∧
      ∀ i, i < (X.filter (fun r => decide ((1 : ℚ) ≤ r.sum))).length →
        (out.getD i []).sum =
          normalize_used_target
            ((X.filter (fun r => decide ((1 : ℚ) ≤ r.sum))).map
              (fun r => r.sum)) none := by
  set S := X.filter (fun r => decide ((1 : ℚ) ≤ r.sum)) with hS
  have hall : ∀ r ∈ S, 1 ≤ r.sum := by
    intro r hr
    have := (List.mem_filter.mp (hS ▸ hr)).2
    exact of_decide_eq_true this
  have hnz : ∀ r ∈ S, r.sum ≠ 0 := by
    intro r hr h0
    have := hall r hr
    rw [h0] at this
    norm_num at this
  have hcall : ∀ c ∈ S.map (fun r => r.sum), 1 ≤ c := by
    intro c hc
    obtain ⟨r, hr, rfl⟩ := List.mem_map.mp hc
    exact hall r hr
  have hcne : S.map (fun r => r.sum) ≠ [] := by
    simpa using hne
  have htar : 1 ≤ npMedian (S.map (fun r => r.sum)) :=
    npMedian_one_le _ hcne hcall
  have htne : npMedian (S.map (fun r => r.sum)) ≠ 0 := by
    intro h
    rw [h] at htar
    norm_num at htar
  have hbump : (S.map (fun r => r.sum)).map
      (fun c => if c = 0 then c + 1 else c) = S.map (fun r => r.sum) := by
    apply map_bump_eq_self
    intro c hc
    obtain ⟨r, hr, rfl⟩ := List.mem_map.mp hc
    exact hnz r hr
  refine ⟨normCore S (S.map (fun r => r.sum)) none, ?_, ?_, ?_, ?_⟩
  · simp only [normalize_per_cell_mat]
    rw [if_neg (by simp)]
  · exact normCore_default_length S _ (by simp)
  · rw [hbump]
    rfl
  · intro i hi
    exact normCore_default_row_sum S hnz i hi htne

theorem C2_normalize_median_target_witness :
    (([[1, 0], [3, 0], [5, 6]] : List (List ℚ)).filter
        (fun r => decide ((1 : ℚ) ≤ r.sum)) ≠ []) ∧
    ∃ out,
      normalize_per_cell_mat [[1, 0], [3, 0], [5, 6]] none none true 1 =
        .ok (some out) ∧
      normalize_used_target
          (([[1, 0], [3, 0], [5, 6]] : List (List ℚ)).map (fun r => r.sum))
          none = 3 ∧
      (out.getD 0 []).sum = 3 ∧ (out.getD 1 []).sum = 3 ∧
      (out.getD 2 []).sum = 3 := by
  have hfilter : ([[1, 0], [3, 0], [5, 6]] : List (List ℚ)).filter
      (fun r => decide ((1 : ℚ) ≤ r.sum)) = [[1, 0], [3, 0], [5, 6]] := by
    norm_num [List.filter]
  have hsums : (([[1, 0], [3, 0], [5, 6]] : List (List ℚ)).map
      (fun r => r.sum)) = [1, 3, 11] := by
    norm_num
  have hmed : normalize_used_target
      (([[1, 0], [3, 0], [5, 6]] : List (List ℚ)).map (fun r => r.sum))
      none = 3 := by
    rw [hsums]
    norm_num [normalize_used_target, npMedian, sortQ, insertSortedQ, List.foldr]
  have hne : ([[1, 0], [3, 0], [5, 6]] : List (List ℚ)).filter
      (fun r => decide ((1 : ℚ) ≤ r.sum)) ≠ [] := by
    rw [hfilter]
    simp
  obtain ⟨out, h1, h2, h3, h4⟩ := C2_normalize_median_target
    [[1, 0], [3, 0], [5, 6]] hne
  refine ⟨hne, out, h1, hmed, ?_, ?_, ?_⟩
  · rw [h4 0 (by rw [hfilter]; norm_num), hfilter]
    exact hmed
  · rw [h4 1 (by rw [hfilter]; norm_num), hfilter]
    exact hmed
  · rw [h4 2 (by rw [hfilter]; norm_num), hfilter]
    exact hmed

/-- **C8 counterexample.** The claim says `normalize_per_cell` returns the
pair (normalized matrix, target_total_used).  It does not: the matrix path
returns only the (optional) matrix — with `copy=False` it returns `None` —
so two calls whose actually-used targets differ (medians 2 versus 4) have
identical return values; the return therefore cannot carry the used
target. -/
theorem C8_no_target_returned_counterexample :
    normalize_per_cell_mat [[1, 1]] none (some [2]) false 1 =
      normalize_per_cell_mat [[2, 2]] none (some [4]) false 1 ∧
    normalize_used_target [2] none ≠ normalize_used_target [4] none := by
  refine ⟨rfl, ?_⟩
  simp only [normalize_used_target, Option.getD_none, npMedian, sortQ,
    insertSortedQ, List.foldr]
  norm_num

/-- **C8 (amended).** The matrix path of `normalize_per_cell` returns only
the normalized matrix — `some` scaled matrix when `copy=True`, `None` when
`copy=False` (pure in-place mutation), and an error when `copy=False` with
no precomputed counts; the actually-used target (the median when
`counts_per_cell_after=None`) is computed internally and is not part of the
return value. -/
theorem C8_return_shape_spec (X : List (List ℚ)) (after? : Option ℚ)
    (counts : List ℚ) (mc : ℚ) :
    normalize_per_cell_mat X after? (some counts) true mc =
      .ok (some (normCore X counts after?)) ∧
    normalize_per_cell_mat X after? (some counts) false mc = .ok none ∧
    normalize_per_cell_mat X after? none false mc =
      .error "Can only be run with copy=True" := ⟨rfl, rfl, rfl⟩

/-! ### Scaler: `scale` / `_scale` (`simple.py` lines 742-789 and 987-1000) -/

/-- Compressed-row sparse matrix (CSR): row-pointer array, column-index
array, stored values. -/
structure Csr where
  nrows : Nat
  ncols : Nat
  indptr : List Nat
  indices : List Nat
  data : List ℚ
deriving DecidableEq

/-- `X.toarray()`: densify a CSR matrix; entry `(r, j)` sums the stored
values `data[k]` with `indptr[r] ≤ k < indptr[r+1]` and `indices[k] = j`. -/
def Csr.toarray (s : Csr) : List (List ℚ) :=
  (List.range s.nrows).map (fun r =>
    (List.range s.ncols).map (fun j =>
      (((List.range s.data.length).filter (fun k =>
          decide (s.indptr.getD r 0 ≤ k) &&
          decide (k < s.indptr.getD (r + 1) 0) &&
          decide (s.indices.getD k 0 = j))).map
        (fun k => s.data.getD k 0)).sum))

/-- A matrix value as `scale` receives it: dense rows or CSR sparse. -/
inductive Mat
  | dense (rows : List (List ℚ))
  | sparse (s : Csr)
deriving DecidableEq

/-- `scipy.sparse.issparse`. -/
def Mat.issparse : Mat → Bool
  | .dense _ => false
  | .sparse _ => true

/-- The dense value of a matrix (`X.toarray()` when sparse). -/
def Mat.toDense : Mat → List (List ℚ)
  | .dense d => d
  | .sparse s => s.toarray

/-- Column count of a dense row list. -/
def ncolsOf (d : List (List ℚ)) : Nat := (d.head?.map List.length).getD 0

/-- `_get_mean_var(X)` (`simple.py` lines 964-984): column means, and
Bessel-corrected variance `(mean_sq - mean²) * n/(n-1)`.  In exact
arithmetic the sparse branch of the source (`X.multiply(X).mean(axis=0)` on
stored entries) equals the dense computation, so both are computed on the
dense value. -/
def get_mean_var (d : List (List ℚ)) : List ℚ × List ℚ :=
  let n : ℚ := d.length
  let mean := (List.range (ncolsOf d)).map
    (fun j => (d.map (fun r => r.getD j 0)).sum / n)
  let meanSq := (List.range (ncolsOf d)).map
    (fun j => (d.map (fun r => r.getD j 0 * r.getD j 0)).sum / n)
  (mean, List.zipWith (fun m2 m => (m2 - m * m) * (n / (n - 1))) meanSq mean)

/-- `_scale(X, zero_center)` (`simple.py` lines 987-1000): scale factors are
`np.sqrt(var)` (`np.sqrt` is an external routine, passed as `sqrtFn`; no
claim depends on its values).  A sparse `X` with `zero_center` raises
`ValueError('Cannot zero-center sparse matrix.')`; sparse without centering
scales stored values column-wise in place; dense subtracts the column mean
and divides by the scale factor (the source does both regardless of
`zero_center` in the dense branch). -/
def scaleHelper (sqrtFn : ℚ → ℚ) (X : Mat) (zeroCenter : Bool) :
    Except String Mat :=
  let d := X.toDense
  let mv := get_mean_var d
  let scaleF := mv.2.map sqrtFn
  match X with
  | .sparse s =>
    if zeroCenter then .error "Cannot zero-center sparse matrix."
    else
      let nd := List.zipWith (fun v k => v * (1 / scaleF.getD k 0)) s.data s.indices
      .ok (.sparse ⟨s.nrows, s.ncols, s.indptr, s.indices, nd⟩)
  | .dense rows =>
    .ok (.dense (rows.map (fun r =>
      (List.range (ncolsOf rows)).map
        (fun j => (r.getD j 0 - mv.1.getD j 0) / scaleF.getD j 0))))

/-- `X[X > max_value] = max_value` after scaling (stored entries when
sparse). -/
def clipMat (X : Mat) (mv : ℚ) : Mat :=
  match X with
  | .dense d => .dense (d.map (fun r => r.map (fun x => if mv < x then mv else x)))
  | .sparse s =>
    .sparse ⟨s.nrows, s.ncols, s.indptr, s.indices,
      s.data.map (fun x => if mv < x then mv else x)⟩

/-- Matrix path of `scale` (`simple.py` lines 773-789): when
`zero_center` and the input is sparse, the input is densified with
`X.toarray()` and `copy` is forced to `True`; then `_scale` runs, the
optional clip is applied, and the result is returned when `copy` (else
`None`, pure in-place mutation). -/
def scale (sqrtFn : ℚ → ℚ) (X : Mat) (zeroCenter : Bool)
    (maxValue : Option ℚ) (copy : Bool) : Except String (Option Mat) :=
  let densify := zeroCenter && X.issparse
  let X1 := if densify then Mat.dense X.toDense else X
  let copy1 := if densify then true else copy
  match scaleHelper sqrtFn X1 zeroCenter with
  | .error e => .error e
  | .ok X2 =>
    let X3 := match maxValue with | some mv => clipMat X2 mv | none => X2
    .ok (if copy1 then some X3 else none)

/-- **C5 counterexample.** `scale` on a concrete sparse matrix with
`zero_center=true` returns `ok` with a densified result — no error is
signalled and the component densifies implicitly, contradicting the
claim. -/
theorem C5_sparse_zero_center_counterexample :
    (∃ d, scale (fun q => q)
        (Mat.sparse ⟨2, 2, [0, 2, 4], [0, 1, 0, 1], [2, 1, 4, 3]⟩) true none
        false = .ok (some (Mat.dense d))) ∧
    ∀ e, scale (fun q => q)
        (Mat.sparse ⟨2, 2, [0, 2, 4], [0, 1, 0, 1], [2, 1, 4, 3]⟩) true none
        false ≠ .error e := by
  refine ⟨⟨_, rfl⟩, ?_⟩
  intro e h
  exact Except.noConfusion h

/-- **C5 (amended).** `scale` with `zero_center=true` on a sparse input does
not signal an error: it implicitly densifies the input (forcing `copy`, so
the dense scaled copy is returned); only the internal helper `_scale`
raises `Cannot zero-center sparse matrix.` when handed a sparse matrix
directly. -/
theorem C5_scale_densifies_spec (sqrtFn : ℚ → ℚ) (s : Csr)
    (maxValue : Option ℚ) (copy : Bool) :
    (∃ d, scale sqrtFn (.sparse s) true maxValue copy = .ok (some (.dense d))) ∧
    scaleHelper sqrtFn (.sparse s) true =
      .error "Cannot zero-center sparse matrix." := by
  refine ⟨?_, rfl⟩
  cases maxValue with
  | none => exact ⟨_, rfl⟩
  | some mv => exact ⟨_, rfl⟩

/-! ### CovariateRegressor: `regress_out` / `_regress_out_chunk`
(`simple.py` lines 618-739) -/

/-- `_regress_out_chunk` (`simple.py` lines 714-739): per feature column of
the chunk, fit a Gaussian GLM and keep its residual vector; a
`PerfectSeparationError` — the rank-deficient / perfectly-separated design
case, modelled by the external fit returning `none` — is caught, a warning
is logged, and that column's residual is replaced by
`np.zeros(data_chunk.shape[0])` (`nrows` = the column's length).  `fit`
stands for the external `statsmodels` routine applied with the call's fixed
regressors. -/
def regress_out_chunk (fit : List ℚ → Option (List ℚ)) (nrows : Nat)
    (cols : List (List ℚ)) : List (List ℚ) :=
  cols.map (fun c =>
    match fit c with
    | some r => r
    | none => List.replicate nrows 0)

/-- The dispatch of `regress_out` (`simple.py` lines 698-705): with
`n_jobs > 1` and more than one chunk, the tasks go to
`multiprocessing.Pool(n_jobs)` with no exception handling — a pool start
failure (`poolOk = false`) propagates and aborts the call; otherwise the
chunks are mapped sequentially.  The sequential branch is chosen only
upfront by this condition, never as a fallback. -/
def regress_out_dispatch (poolOk : Bool) (nJobs : Nat)
    (fit : List ℚ → Option (List ℚ)) (nrows : Nat)
    (tasks : List (List (List ℚ))) : Except String (List (List (List ℚ))) :=
  if 1 < nJobs ∧ 1 < tasks.length then
    if poolOk then .ok (tasks.map (regress_out_chunk fit nrows))
    else .error "pool start failure"
  else .ok (tasks.map (regress_out_chunk fit nrows))

/-- **C6 counterexample.** With `n_jobs = 2`, two chunks and a pool start
failure, `regress_out`'s dispatch aborts with the pool error — there is no
sequential fallback, contradicting the claim that the call is never aborted
by pool unavailability. -/
theorem C6_pool_failure_aborts_counterexample :
    regress_out_dispatch false 2 (fun c => some c) 1 [[[1]], [[2]]] =
      .error "pool start failure" := by
  rfl

/-- **C6 (amended).** `regress_out` runs its chunk tasks through the worker
pool exactly when `n_jobs > 1` and there is more than one chunk, with no
recovery: in that case a pool start failure aborts the call, and the
sequential execution of the same chunk tasks happens only when the
condition selects it upfront (`n_jobs ≤ 1` or a single chunk). -/
theorem C6_dispatch_spec (poolOk : Bool) (nJobs : Nat)
    (fit : List ℚ → Option (List ℚ)) (nrows : Nat)
    (tasks : List (List (List ℚ))) :
    ((∃ e, regress_out_dispatch poolOk nJobs fit nrows tasks = .error e) ↔
      (poolOk = false ∧ 1 < nJobs ∧ 1 < tasks.length)) ∧
    regress_out_dispatch true nJobs fit nrows tasks =
      .ok (tasks.map (regress_out_chunk fit nrows)) ∧
    regress_out_dispatch poolOk 1 fit nrows tasks =
      .ok (tasks.map (regress_out_chunk fit nrows)) := by
  refine ⟨?_, ?_, ?_⟩
  · constructor
    · rintro ⟨e, he⟩
      by_cases hc : 1 < nJobs ∧ 1 < tasks.length
      · rw [regress_out_dispatch, if_pos hc] at he
        cases poolOk with
        | false => exact ⟨rfl, hc⟩
        | true => simp at he
      · rw [regress_out_dispatch, if_neg hc] at he
        simp at he
    · rintro ⟨hp, hc⟩
      subst hp
      rw [regress_out_dispatch, if_pos hc]
      exact ⟨_, rfl⟩
  · rw [regress_out_dispatch]
    split
    · rfl
    · rfl
  · rw [regress_out_dispatch, if_neg (by omega)]

/-- **C7.** In `_regress_out_chunk`, a column whose design is
rank-deficient / perfectly separated (the fit raises
`PerfectSeparationError`) gets an all-zero residual of the column's length
while every other column keeps its fitted residual, and the batch always
completes: with these chunk results the dispatch returns `ok` (one chunk is
executed sequentially regardless of the pool). -/
theorem C7_regress_out_chunk_spec (fit : List ℚ → Option (List ℚ))
    (nrows : Nat) (cols : List (List ℚ)) (i : Nat) (hi : i < cols.length) :
    (regress_out_chunk fit nrows cols).length = cols.length ∧
    (fit (cols.get ⟨i, hi⟩) = none →
      (regress_out_chunk fit nrows cols).getD i [] = List.replicate nrows 0) ∧
    (∀ r, fit (cols.get ⟨i, hi⟩) = some r →
      (regress_out_chunk fit nrows cols).getD i [] = r) ∧
    ∀ poolOk nJobs, ∃ res,
      regress_out_dispatch poolOk nJobs fit nrows [cols] = .ok res := by
  have hrow : (regress_out_chunk fit nrows cols).getD i [] =
      match fit (cols.get ⟨i, hi⟩) with
      | some r => r
      | none => List.replicate nrows 0 := by
    simp only [regress_out_chunk]
    exact getD_map_eq _ cols i hi []
  refine ⟨by simp [regress_out_chunk], ?_, ?_, ?_⟩
  · intro hnone
    rw [hrow, hnone]
  · intro r hsome
    rw [hrow, hsome]
  · intro poolOk nJobs
    refine ⟨[regress_out_chunk fit nrows cols], ?_⟩
    rw [regress_out_dispatch, if_neg (by simp)]
    rfl

theorem C7_regress_out_chunk_witness :
    (((0 : Nat) < 2 ∧ (1 : Nat) < 2) ∧
      (fun c => if c = [(1 : ℚ), 2] then none else some c) [(1 : ℚ), 2] =
          none ∧
        (fun c => if c = [(1 : ℚ), 2] then none else some c) [(3 : ℚ), 4] =
          some [(3 : ℚ), 4]) ∧
    (regress_out_chunk (fun c => if c = [(1 : ℚ), 2] then none else some c) 2
        [[1, 2], [3, 4]]).getD 0 [] = List.replicate 2 0 ∧
      (regress_out_chunk (fun c => if c = [(1 : ℚ), 2] then none else some c) 2
        [[1, 2], [3, 4]]).getD 1 [] = [(3 : ℚ), 4] := by
  refine ⟨⟨⟨by decide, by decide⟩, by decide, by decide⟩, ?_, ?_⟩
  · exact (C7_regress_out_chunk_spec
      (fun c => if c = [(1 : ℚ), 2] then none else some c) 2 [[1, 2], [3, 4]]
      0 (by decide)).2.1 (by decide)
  · exact (C7_regress_out_chunk_spec
      (fun c => if c = [(1 : ℚ), 2] then none else some c) 2 [[1, 2], [3, 4]]
      1 (by decide)).2.2.1 [(3 : ℚ), 4] (by decide)

end Scanpy
